import Mathlib

/-!
Verification development for the National Housing Simulation repository.

The development shallowly embeds the row-level semantics of the core
pipeline functions:

* `src/nhs/data/allocation.py` — `join_census_with_coords`,
  `sample_census_feature`, `_join_sampled_census_features`,
  `_stack_sampled_census_features`, `randomly_assign_census_features`;
* `src/nhs/data/geography.py` — `process_chunk`, `parallel_process`;
* `src/nhs/data/filter.py` — `filter_sa1_regions`;
* `src/scripts/home_allocation.py` — `write_csv_in_chunks`.

Frames are modelled as lists of structured rows (one structure per schema),
so column-name parameters of the Python functions disappear: a Python
column access becomes a field access.  Floating point coordinates are
modelled as integers (no claim depends on float arithmetic; coordinates
are only copied and compared).  The unseeded `polars` shuffle
`pl.int_range(pl.len()).shuffle().over(code_col)` is modelled by an
explicit oracle `perm : Nat → List Nat` giving, for each region code,
the shuffled list of in-group indices; a lawful outcome of the shuffle
is any `perm c` that is a permutation of `List.range g` where `g` is the
size of the region's group (`validPerm`).
-/

namespace NHS

/-- A row of the frame passed to `sample_census_feature`: region code,
longitude, latitude and the (integer) census count of the one feature
column being sampled. -/
structure CRow where
  code : Nat
  lng : Int
  lat : Int
  feat : Nat
deriving Repr, DecidableEq

/-- A row produced by `sample_census_feature`: the feature column has been
overwritten with a boolean flag (`pl.lit(True)`). -/
structure BRow where
  code : Nat
  lng : Int
  lat : Int
  feat : Bool
deriving Repr, DecidableEq

/-- A row of the frame passed to `randomly_assign_census_features`:
region code, coordinates, and the census counts of every feature column
(`feats.getD f 0` is the count in feature column `f`). -/
structure InRow where
  code : Nat
  lng : Int
  lat : Int
  feats : List Nat
deriving Repr, DecidableEq

/-- A row of the final output of `randomly_assign_census_features`:
`person_id` (row index), region code, coordinates, and one boolean flag
per feature column. -/
structure OutRow where
  person_id : Nat
  code : Nat
  lng : Int
  lat : Int
  flags : List Bool
deriving Repr, DecidableEq

/-- Boolean test used throughout for the polars expressions
`pl.col(code_col) == c` / `.over(code_col)` grouping. -/
def isCode (c : Nat) : CRow → Bool := fun r => r.code == c

/-- A row of the census table before the coordinate join: region code and
the per-feature census counts (`join_census_with_coords` left input). -/
structure CensusRow where
  code : Nat
  feats : List Nat
deriving Repr, DecidableEq

/-- A row of the GNAF coordinate table: region code and coordinates
(`join_census_with_coords` right input). -/
structure CoordRow where
  code : Nat
  lng : Int
  lat : Int
deriving Repr, DecidableEq

/-- `join_census_with_coords` (src/nhs/data/allocation.py:68-74): inner
join of the census table with the coordinate table on the region-code
columns.  Each census row is paired with every coordinate row carrying
the same code; regions with no matching coordinates are dropped (inner
join).  The type cast of the code column is the identity here because
both codes are modelled as `Nat`. -/
def join_census_with_coords (census : List CensusRow) (coords : List CoordRow) :
    List InRow :=
  (census.map (fun cr =>
    (coords.filter (fun kr => kr.code == cr.code)).map
      (fun kr => ⟨cr.code, kr.lng, kr.lat, cr.feats⟩))).flatten

/-- The `.repeat_by(pl.col(feature_col)).flatten()` stage of
`sample_census_feature` (src/nhs/data/allocation.py:164-169): every row is
replicated as many times as its own feature count, keeping row order. -/
def repeatBy (l : List CRow) : List CRow :=
  (l.map (fun r => List.replicate r.feat r)).flatten

/-- Tag every row with its in-group index for the `.over(code_col)` window:
the tag of a row is the number of earlier rows (the accumulator `pre`
holds the already-seen rows) with the same region code. -/
def withGroupIdx : List CRow → List CRow → List (CRow × Nat)
  | _, [] => []
  | pre, r :: rs =>
    (r, pre.countP (fun s => s.code == r.code)) :: withGroupIdx (pre ++ [r]) rs

/-- `sample_census_feature` (src/nhs/data/allocation.py:107-176).
An empty input frame is returned unchanged (the early-return branch at
lines 160-162, an empty frame either way).  Otherwise every row is
replicated by its feature count (`repeat_by`/`flatten`), the filter
`pl.int_range(pl.len()).shuffle().over(code_col) < pl.col(feature_col)`
keeps the rows whose shuffled in-group index (given by the oracle `perm`
applied to the row's region code) is below the row's feature count, and
the feature column is overwritten with `True`. -/
def sample_census_feature (census : List CRow) (perm : Nat → List Nat) :
    List BRow :=
  if census.length = 0 then []
  else
    ((withGroupIdx [] (repeatBy census)).filter
        (fun rj => (perm rj.1.code).getD rj.2 0 < rj.1.feat)).map
      (fun rj => ⟨rj.1.code, rj.1.lng, rj.1.lat, true⟩)

/-- A lawful outcome of the unseeded shuffle inside
`sample_census_feature`: for region code `c`, the oracle must be a
permutation of the in-group indices `0, …, g-1` of the repeated frame's
`c`-group. -/
def validPerm (census : List CRow) (perm : Nat → List Nat) (c : Nat) : Prop :=
  (perm c).Perm (List.range ((repeatBy census).countP (isCode c)))

/-- The single-feature projection `census.select(code, long, lat, feat_col)`
performed by `randomly_assign_census_features` when it calls
`sample_census_feature` on feature column `f`. -/
def featFrame (census : List InRow) (f : Nat) : List CRow :=
  census.map (fun r => ⟨r.code, r.lng, r.lat, r.feats.getD f 0⟩)

/-- The sampled frame for feature column `f` inside
`randomly_assign_census_features` (src/nhs/data/allocation.py:306-309),
with the oracle for feature `f`. -/
def sampledFor (census : List InRow) (perms : Nat → Nat → List Nat) (f : Nat) :
    List BRow :=
  sample_census_feature (featFrame census f) (perms f)

/-- Oracle validity for feature column `f` of the full pipeline: the
shuffle drawn while sampling feature `f` is a permutation of the
in-group indices of region `c` in the repeated single-feature frame. -/
def validPermFor (census : List InRow) (f : Nat) (perms : Nat → Nat → List Nat)
    (c : Nat) : Prop :=
  validPerm (featFrame census f) (perms f) c

instance (census : List CRow) (perm : Nat → List Nat) (c : Nat) :
    Decidable (validPerm census perm c) :=
  inferInstanceAs (Decidable ((perm c).Perm
    (List.range ((repeatBy census).countP (isCode c)))))

instance (census : List InRow) (f : Nat) (perms : Nat → Nat → List Nat)
    (c : Nat) : Decidable (validPermFor census f perms c) :=
  inferInstanceAs (Decidable (validPerm (featFrame census f) (perms f) c))

/-- The `reduce(_stack_sampled_census_features, sampled_features)` stage
(src/nhs/data/allocation.py:207-215, 310): the per-feature sampled frames
are vertically concatenated (`pl.concat(..., how="diagonal_relaxed")`) in
feature order, and each row remembers which feature frame it came from
(that frame's feature column holds the row's boolean; every other feature
column is null and is filled with `False`). -/
def stacked (census : List InRow) (k : Nat) (perms : Nat → Nat → List Nat) :
    List (Nat × BRow) :=
  ((List.range k).map (fun f =>
    (sampledFor census perms f).map (fun b => (f, b)))).flatten

/-- `randomly_assign_census_features` (src/nhs/data/allocation.py:219-315)
over `k` feature columns: stack the per-feature sampled frames, fill the
missing feature flags with `False`, and assign the row index
(`pl.int_range(pl.len())`) as `person_id`.  A row contributed by feature
frame `f` has flag `f` equal to its sampled boolean (always `True`) and
every other flag `False`.  The `ignore_total` column drop
(lines 301-304) removes count columns whose name starts with `"Tot_"`;
it is the identity here because the modelled rows carry exactly the `k`
feature columns being allocated. -/
def randomly_assign_census_features (census : List InRow) (k : Nat)
    (perms : Nat → Nat → List Nat) : List OutRow :=
  (stacked census k perms).enum.map (fun ir =>
    ⟨ir.1, ir.2.2.code, ir.2.2.lng, ir.2.2.lat,
      (List.range k).map (fun i => if i = ir.2.1 then ir.2.2.feat else false)⟩)

/-- Number of output rows whose region code is `c` and whose flag for
feature column `f` is `True`. -/
def trueCount (out : List OutRow) (c f : Nat) : Nat :=
  out.countP (fun o => o.code == c && o.flags.getD f false)

/-- A row of `_join_sampled_census_features` output for two sampled
single-feature frames: the shared key columns plus both feature flags. -/
structure JRow where
  code : Nat
  lng : Int
  lat : Int
  fa : Bool
  fb : Bool
deriving Repr, DecidableEq

/-- Key equality on the shared non-feature columns
(region code, longitude, latitude). -/
def keyMatch (a b : BRow) : Bool :=
  a.code == b.code && a.lng == b.lng && a.lat == b.lat

/-- `_join_sampled_census_features` (src/nhs/data/allocation.py:194-203)
for two single-feature frames: full (outer) join on the shared
non-feature columns with `coalesce=True`, then `fill_null(False)` on the
feature columns.  Every left row is paired with every matching right
row, or kept alone with the right flag `False`; unmatched right rows are
appended with the left flag `False`.  This helper is defined by the
repository but is not called by `randomly_assign_census_features`. -/
def join_sampled_census_features (l1 l2 : List BRow) : List JRow :=
  (l1.map (fun a =>
    let ms := l2.filter (fun b => keyMatch a b)
    if ms.isEmpty then [⟨a.code, a.lng, a.lat, a.feat, false⟩]
    else ms.map (fun b => ⟨a.code, a.lng, a.lat, a.feat, b.feat⟩))).flatten
  ++ (l2.filter (fun b => !(l1.any (fun a => keyMatch a b)))).map
      (fun b => ⟨b.code, b.lng, b.lat, false, b.feat⟩)

/-- An address point handed to the spatial join of
src/nhs/data/geography.py (the `x`/`y` columns). -/
structure Point where
  x : Int
  y : Int
deriving Repr, DecidableEq

/-- An area polygon of the shapefile (`map_data` rows).  The geometric
backend (shapely/geopandas) is abstracted: `contains p` is the
`within` containment test of point `p`, and `dist p` the boundary
distance used by `sjoin_nearest`. -/
structure Polygon where
  code : Nat
  name : Nat
  contains : Point → Bool
  dist : Point → Nat

/-- An output row of `process_chunk`: coordinates plus the (nullable)
`area` (`SA2_NAME21`) and `area_code` (`SA1_CODE21`) columns. -/
structure ARow where
  x : Int
  y : Int
  area : Option Nat
  area_code : Option Nat
deriving Repr, DecidableEq

/-- The nearest polygon to a point: minimum `dist`, ties broken by
polygon order in `map_data` (the first minimising polygon wins), `none`
for an empty polygon list. -/
def nearest (polys : List Polygon) (p : Point) : Option Polygon :=
  polys.foldl (fun acc poly =>
    match acc with
    | none => some poly
    | some best => if poly.dist p < best.dist p then some poly else acc) none

/-- `process_chunk` (src/nhs/data/geography.py:66-123): left spatial join
of the chunk's points with the polygons under the `within` predicate —
one output row per containing polygon; a point inside no polygon first
yields a row with null area fields, which is then overwritten by an
`sjoin_nearest` fallback assigning the nearest polygon's name and code
(null only when there is no polygon at all). -/
def process_chunk (map_data : List Polygon) (chunk : List Point) : List ARow :=
  (chunk.map (fun p =>
    let within := map_data.filter (fun poly => poly.contains p)
    if within.isEmpty then
      match nearest map_data p with
      | some poly => [⟨p.x, p.y, some poly.name, some poly.code⟩]
      | none => [⟨p.x, p.y, none, none⟩]
    else within.map (fun poly => ⟨p.x, p.y, some poly.name, some poly.code⟩))).flatten

/-- Size of the first chunk produced by `np.array_split` on a list of
length `len` split into `n` parts: `⌈len / n⌉` (the first `len % n`
chunks are one element longer). -/
def splitSize (len n : Nat) : Nat :=
  len / n + (if len % n = 0 then 0 else 1)

/-- `np.array_split(pnts_gdf, num_cores)` (src/nhs/data/geography.py:130):
split a list into `n` ordered contiguous chunks whose sizes differ by at
most one (the first `len % n` chunks get the extra element). -/
def array_split (l : List Point) : Nat → List (List Point)
  | 0 => []
  | n + 1 =>
    l.take (splitSize l.length (n + 1)) ::
      array_split (l.drop (splitSize l.length (n + 1))) n

/-- `parallel_process` (src/nhs/data/geography.py:126-133): split the
points into `n` chunks, run `process_chunk` on each against the full
polygon set (`pool.map` keeps chunk order), and concatenate the results. -/
def parallel_process (pnts : List Point) (map_data : List Polygon) (n : Nat) :
    List ARow :=
  ((array_split pnts n).map (fun chunk => process_chunk map_data chunk)).flatten

/-- A row of the GNAF frame filtered by `filter_sa1_regions`: the
`SA1_CODE21` and `SA2_CODE21` columns plus an abstract payload standing
for all remaining columns. -/
structure FRow where
  sa1 : Nat
  sa2 : Nat
  payload : Int
deriving Repr, DecidableEq

/-- `filter_sa1_regions` (src/nhs/data/filter.py:167-204): keep only rows
whose SA1 code is in `region_codes` (skipped when that list is empty,
Python truthiness) and whose SA2 code is in `sa2_codes` (likewise
skipped when empty). -/
def filter_sa1_regions (lf : List FRow) (region_codes : List Nat)
    (sa2_codes : List Nat) : List FRow :=
  let lf1 :=
    if region_codes.isEmpty then lf
    else lf.filter (fun r => region_codes.contains r.sa1)
  if sa2_codes.isEmpty then lf1
  else lf1.filter (fun r => sa2_codes.contains r.sa2)

/-- `lf.collect(streaming=True).iter_slices(chunk_size)`
(src/scripts/home_allocation.py:62): the table's rows in order, cut into
consecutive chunks of `k` rows (the last chunk may be shorter).  The
`k = 0` guard only serves termination; the caller always passes a
positive chunk size. -/
def iter_slices {α : Type} (l : List α) (k : Nat) : List (List α) :=
  if l.isEmpty ∨ k = 0 then []
  else l.take k :: iter_slices (l.drop k) k
termination_by l.length
decreasing_by
  simp only [List.isEmpty_iff, not_or, ← List.length_pos_iff_ne_nil] at *
  simp only [List.length_drop]
  omega

/-- `DataFrame.write_csv` rendering of a chunk as lines: polars includes
the header line by default, both when writing to a path and when
returning a string. -/
def write_csv {α : Type} (header : α) (rows : List α) : List α :=
  header :: rows

/-- `write_csv_in_chunks` (src/scripts/home_allocation.py:40-70) as the
list of lines of the resulting file: the first chunk's CSV overwrites
the target, and each later chunk appends the string `chunk.write_csv()`
— the full CSV rendering of that chunk, its header line included. -/
def write_csv_in_chunks {α : Type} (header : α) (rows : List α) (k : Nat) :
    List α :=
  ((iter_slices rows k).map (fun chunk => write_csv header chunk)).flatten

/-- Concrete census table: one region (code 3) with a single feature of
count 2. -/
def wCensusT : List CensusRow := [⟨3, [2]⟩]

/-- Concrete coordinate table: two addresses joined to region 3. -/
def wCoords : List CoordRow := [⟨3, 10, 20⟩, ⟨3, 11, 21⟩]

/-- The joined frame of `wCensusT` and `wCoords`: two addresses in region
3, each carrying the count 2 for the single feature column. -/
def wCensus1 : List InRow := [⟨3, 10, 20, [2]⟩, ⟨3, 11, 21, [2]⟩]

/-- A lawful shuffle outcome for `wCensus1` (the repeated group of region
3 has four rows). -/
def wPerms1 : Nat → Nat → List Nat := fun _ _ => [2, 0, 3, 1]

/-- One region with two addresses and quota 1 for the single feature. -/
def cexCensus2 : List InRow := [⟨0, 0, 0, [1]⟩, ⟨0, 1, 1, [1]⟩]

/-- One lawful shuffle outcome for `cexCensus2` (the identity). -/
def cexPermsA : Nat → Nat → List Nat := fun _ _ => [0, 1]

/-- Another lawful shuffle outcome for `cexCensus2` (the swap). -/
def cexPermsB : Nat → Nat → List Nat := fun _ _ => [1, 0]

/-- A census table whose region 7 has quota 5 for its single feature. -/
def cexCensus3 : List CensusRow := [⟨7, [5]⟩]

/-- A census table with region 7 (quota 5) and region 8 (quota 1). -/
def wCensus3 : List CensusRow := [⟨7, [5]⟩, ⟨8, [1]⟩]

/-- A coordinate table with one address, joined only to region 8: the
pool of region 7 is empty. -/
def wCoords3 : List CoordRow := [⟨8, 5, 6⟩]

/-- A lawful shuffle outcome for the region-8 group of size one. -/
def wPerms3 : Nat → Nat → List Nat := fun _ _ => [0]

/-- Five addresses in region 0 with two feature columns of counts 2 and
3. -/
def cexCensus4 : List InRow :=
  [⟨0, 0, 0, [2, 3]⟩, ⟨0, 1, 1, [2, 3]⟩, ⟨0, 2, 2, [2, 3]⟩,
   ⟨0, 3, 3, [2, 3]⟩, ⟨0, 4, 4, [2, 3]⟩]

/-- Lawful shuffle outcomes for `cexCensus4` picking addresses 0, 1 for
feature 0 and addresses 0, 1, 2 for feature 1 (overlapping samples). -/
def cexPerms4 : Nat → Nat → List Nat := fun f _ =>
  if f = 0 then [0, 2, 1, 3, 4, 5, 6, 7, 8, 9]
  else [0, 3, 4, 1, 5, 6, 2, 7, 8, 9, 10, 11, 12, 13, 14]

/-- Two distinct addresses in region 0, quota 2 (pool size equals the
quota). -/
def cexCensus5 : List CRow := [⟨0, 0, 0, 2⟩, ⟨0, 1, 1, 2⟩]

/-- The identity shuffle on the repeated group of `cexCensus5` (four
rows): it keeps both copies of the first address. -/
def cexPerm5 : Nat → List Nat := fun _ => [0, 1, 2, 3]

/-- A polygon containing no point, at distance `|x - 3|` from any point. -/
def wPoly6 : Polygon := ⟨11, 5, fun _ => false, fun p => (p.x - 3).natAbs⟩

/-- A point inside no polygon. -/
def wPoint6 : Point := ⟨0, 0⟩

/-- A single polygon containing exactly the points with `x = 0`. -/
def wPolys7 : List Polygon := [⟨1, 1, fun p => p.x == 0, fun _ => 0⟩]

/-- Three points, one inside the polygon of `wPolys7`. -/
def wPts7 : List Point := [⟨0, 0⟩, ⟨1, 1⟩, ⟨2, 2⟩]

/-- Unfolding equation for `repeatBy` on a cons cell. -/
lemma repeatBy_cons (r : CRow) (rs : List CRow) :
    repeatBy (r :: rs) = List.replicate r.feat r ++ repeatBy rs := by
  simp [repeatBy]

/-- The first components of the tagged rows are the rows themselves. -/
lemma withGroupIdx_map_fst (u : List CRow) :
    ∀ pre, (withGroupIdx pre u).map Prod.fst = u := by
  induction u with
  | nil => intro pre; rfl
  | cons r rs ih => intro pre; simp [withGroupIdx, ih]

/-- Tagged rows come from the tagged list. -/
lemma fst_mem_of_mem_withGroupIdx {u pre : List CRow} {rj : CRow × Nat}
    (h : rj ∈ withGroupIdx pre u) : rj.1 ∈ u := by
  have h2 := List.mem_map_of_mem Prod.fst h
  rwa [withGroupIdx_map_fst] at h2

/-- Rows of the repeated frame are rows of the original frame. -/
lemma mem_of_mem_repeatBy {l : List CRow} {r : CRow} (h : r ∈ repeatBy l) :
    r ∈ l := by
  rw [repeatBy, List.mem_flatten] at h
  obtain ⟨s, hs, hrs⟩ := h
  obtain ⟨r', hr', rfl⟩ := List.mem_map.1 hs
  exact (List.eq_of_mem_replicate hrs) ▸ hr'

/-- The in-group tags of the rows of any one region code are consecutive,
starting from the number of occurrences of that code in the accumulator:
the `.over(code_col)` window indexes each group by `0, …, g-1`. -/
lemma withGroupIdx_tags (c : Nat) (u : List CRow) :
    ∀ pre, ((withGroupIdx pre u).filter (fun rj => rj.1.code == c)).map Prod.snd
      = List.range' (pre.countP (isCode c)) (u.countP (isCode c)) := by
  induction u with
  | nil => intro pre; rfl
  | cons r rs ih =>
    intro pre
    by_cases h : r.code = c
    · subst h
      rw [withGroupIdx, List.filter_cons]
      simp only [beq_self_eq_true, if_pos]
      rw [List.map_cons, ih]
      have hpre : (pre ++ [r]).countP (isCode r.code) =
          pre.countP (isCode r.code) + 1 := by
        rw [List.countP_append]; simp [isCode]
      have hcnt : (r :: rs).countP (isCode r.code) =
          rs.countP (isCode r.code) + 1 := by
        rw [List.countP_cons]; simp [isCode]
      rw [hpre, hcnt, List.range'_succ]
      exact rfl
    · rw [withGroupIdx, List.filter_cons]
      have hb : ((r, pre.countP fun s => s.code == r.code).1.code == c) = false := by
        simpa using h
      rw [hb]
      simp only [Bool.false_eq_true, if_neg, not_false_iff]
      rw [ih]
      have hpre : (pre ++ [r]).countP (isCode c) = pre.countP (isCode c) := by
        rw [List.countP_append]; simp [isCode, h]
      have hcnt : (r :: rs).countP (isCode c) = rs.countP (isCode c) := by
        rw [List.countP_cons]; simp [isCode, h]
      rw [hpre, hcnt]

/-- Counting in a replicated list. -/
lemma countP_replicate (p : CRow → Bool) (a : CRow) :
    ∀ n, (List.replicate n a).countP p = if p a then n else 0 := by
  intro n
  induction n with
  | zero => simp
  | succ n ih =>
    rw [List.replicate_succ, List.countP_cons, ih]
    by_cases h : p a <;> simp [h]

/-- Size of one region's group in the repeated frame under a uniform
feature count: each of the `countP` pool rows is replicated `q` times. -/
lemma countP_repeatBy_uniform :
    ∀ (l : List CRow) (c q : Nat), (∀ r ∈ l, r.code = c → r.feat = q) →
      (repeatBy l).countP (isCode c) = q * l.countP (isCode c)
  | [], _, _, _ => rfl
  | r :: rs, c, q, hu => by
    have ih := countP_repeatBy_uniform rs c q
      (fun s hs => hu s (List.mem_cons_of_mem _ hs))
    rw [repeatBy_cons, List.countP_append, ih, countP_replicate,
      List.countP_cons]
    by_cases h : r.code = c
    · have hq : r.feat = q := hu r (List.mem_cons_self _ _) h
      simp only [isCode, h, hq, beq_self_eq_true, if_pos]
      ring
    · simp [isCode, h]

/-- Counting the shuffled indices below the quota over a full permutation
of the group indices: exactly `min q g` of the `g` indices are below `q`. -/
lemma countP_range_lt (q : Nat) :
    ∀ g, (List.range g).countP (fun x => decide (x < q)) = min q g := by
  intro g
  induction g with
  | zero => simp
  | succ g ih =>
    rw [List.range_succ, List.countP_append, ih, List.countP_cons]
    simp only [List.countP_nil, decide_eq_true_eq]
    by_cases h : g < q
    · rw [if_pos h]; omega
    · rw [if_neg h]; omega

/-- Reading a list back off through `getD` over its index range. -/
lemma map_getD_range (l : List Nat) :
    (List.range l.length).map (fun j => l.getD j 0) = l := by
  apply List.ext_getElem
  · simp
  · intro i h1 h2
    simp [List.getD_eq_getElem?_getD, List.getElem?_eq_getElem h2]

/-- Reading one entry of a mapped index range through `getD`. -/
lemma getD_map_range {k f : Nat} (h : f < k) {β : Type} (g : Nat → β) (d : β) :
    ((List.range k).map g).getD f d = g f := by
  simp [List.getD_eq_getElem?_getD, List.getElem?_map, List.getElem?_range h]

/-- Core counting fact for `sample_census_feature`: for a region `c` whose
rows all carry the uniform feature count `q` (as produced by the inner
join with the census table) and a non-empty pool, any lawful shuffle
keeps exactly `q` rows of that region. -/
lemma countP_sample_eq (census : List CRow) (perm : Nat → List Nat) (c q : Nat)
    (hu : ∀ r ∈ census, r.code = c → r.feat = q)
    (hp : 0 < census.countP (isCode c))
    (hv : validPerm census perm c) :
    (sample_census_feature census perm).countP (fun b => b.code == c) = q := by
  have hne : ¬census.length = 0 := by
    intro h0
    rw [List.length_eq_zero] at h0
    subst h0
    simp at hp
  have hperm : (perm c).Perm
      (List.range ((repeatBy census).countP (isCode c))) := hv
  have hlen : (perm c).length = (repeatBy census).countP (isCode c) := by
    simpa using hperm.length_eq
  have hUu : ∀ r ∈ repeatBy census, r.code = c → r.feat = q :=
    fun r hr => hu r (mem_of_mem_repeatBy hr)
  rw [sample_census_feature, if_neg hne, List.countP_map]
  have key : List.countP
      ((fun b : BRow => b.code == c) ∘ fun rj : CRow × Nat =>
        (⟨rj.1.code, rj.1.lng, rj.1.lat, true⟩ : BRow))
      ((withGroupIdx [] (repeatBy census)).filter
        (fun rj => decide ((perm rj.1.code).getD rj.2 0 < rj.1.feat)))
      = List.countP (fun j => decide ((perm c).getD j 0 < q))
        (((withGroupIdx [] (repeatBy census)).filter
          (fun rj => rj.1.code == c)).map Prod.snd) := by
    rw [List.countP_map, List.countP_filter, List.countP_filter]
    apply List.countP_congr
    intro rj hrj
    by_cases hc : rj.1.code = c
    · have hfq : rj.1.feat = q :=
        hUu rj.1 (fst_mem_of_mem_withGroupIdx hrj) hc
      simp [Function.comp, hc, hfq, Bool.and_comm]
    · simp [Function.comp, hc]
  rw [key, withGroupIdx_tags]
  simp only [List.countP_nil]
  rw [← List.range_eq_range']
  have h2 : (List.range ((repeatBy census).countP (isCode c))).countP
      (fun j => decide ((perm c).getD j 0 < q))
      = (perm c).countP (fun x => decide (x < q)) := by
    calc (List.range ((repeatBy census).countP (isCode c))).countP
          (fun j => decide ((perm c).getD j 0 < q))
        = (List.range (perm c).length).countP
            (fun j => decide ((perm c).getD j 0 < q)) := by rw [hlen]
      _ = ((List.range (perm c).length).map
            (fun j => (perm c).getD j 0)).countP (fun x => decide (x < q)) := by
          rw [List.countP_map]
          exact rfl
      _ = (perm c).countP (fun x => decide (x < q)) := by rw [map_getD_range]
  rw [h2, hperm.countP_eq, countP_range_lt,
    countP_repeatBy_uniform census c q hu]
  have hle : q ≤ q * census.countP (isCode c) := by
    calc q = q * 1 := by ring
      _ ≤ q * census.countP (isCode c) := Nat.mul_le_mul_left q hp
  omega

/-- Every row emitted by `sample_census_feature` has its feature flag set
(`pl.lit(True)` overwrites the feature column). -/
lemma feat_of_mem_sample {census : List CRow} {perm : Nat → List Nat}
    {b : BRow} (h : b ∈ sample_census_feature census perm) : b.feat = true := by
  rw [sample_census_feature] at h
  split at h
  · simp at h
  · obtain ⟨rj, hrj, rfl⟩ := List.mem_map.1 h
    rfl

/-- Every row emitted by `sample_census_feature` copies the region code and
the coordinates of some input row. -/
lemma mem_sample_source {census : List CRow} {perm : Nat → List Nat}
    {b : BRow} (h : b ∈ sample_census_feature census perm) :
    ∃ r ∈ census, r.code = b.code ∧ r.lng = b.lng ∧ r.lat = b.lat := by
  rw [sample_census_feature] at h
  split at h
  · simp at h
  · obtain ⟨rj, hrj, rfl⟩ := List.mem_map.1 h
    have h1 : rj ∈ withGroupIdx [] (repeatBy census) :=
      List.mem_of_mem_filter hrj
    have h2 : rj.1 ∈ census :=
      mem_of_mem_repeatBy (fst_mem_of_mem_withGroupIdx h1)
    exact ⟨rj.1, h2, rfl, rfl, rfl⟩

/-- The per-feature count transfers from the projected single-feature
frame to the full frame. -/
lemma countP_sampledFor_eq (census : List InRow)
    (perms : Nat → Nat → List Nat) (f c q : Nat)
    (hu : ∀ r ∈ census, r.code = c → r.feats.getD f 0 = q)
    (hp : 0 < census.countP (fun r => r.code == c))
    (hv : validPermFor census f perms c) :
    (sampledFor census perms f).countP (fun b => b.code == c) = q := by
  apply countP_sample_eq
  · intro r' hr' hc
    obtain ⟨r, hr, rfl⟩ := List.mem_map.1 hr'
    exact hu r hr hc
  · rw [featFrame, List.countP_map]
    exact hp
  · exact hv

/-- Counting over an indexed list when the predicate ignores the index. -/
lemma countP_enum {α : Type} (p : α → Bool) (l : List α) :
    l.enum.countP (fun ia => p ia.2) = l.countP p := by
  have h : l.enum.map Prod.snd = l := List.enumFrom_map_snd 0 l
  conv_rhs => rw [← h]
  rw [List.countP_map]
  exact rfl

/-- Summing a one-point function over an index range. -/
lemma sum_map_ite_eq (v : Nat) :
    ∀ (k f : Nat), f < k →
      ((List.range k).map (fun i => if i = f then v else 0)).sum = v := by
  intro k
  induction k with
  | zero => intro f hf; omega
  | succ k ih =>
    intro f hf
    rw [List.range_succ, List.map_append, List.sum_append]
    by_cases h : f = k
    · subst h
      have hz : ((List.range f).map (fun i => if i = f then v else 0)).sum = 0 := by
        apply List.sum_eq_zero
        intro x hx
        obtain ⟨i, hi, rfl⟩ := List.mem_map.1 hx
        have hlt : i < f := List.mem_range.1 hi
        simp [Nat.ne_of_lt hlt]
      simp [hz]
    · have hf2 : f < k := by omega
      have hne : ¬k = f := fun hh => h hh.symm
      rw [ih f hf2]
      simp [hne]

/-- Central counting fact for `randomly_assign_census_features`: for a
region `c` with a non-empty joined pool and a uniform count `q` in
feature column `f`, any lawful shuffle for feature `f` produces exactly
`q` output rows of region `c` with flag `f` set. -/
lemma trueCount_assign (census : List InRow) (k : Nat)
    (perms : Nat → Nat → List Nat) (c f q : Nat) (hf : f < k)
    (hu : ∀ r ∈ census, r.code = c → r.feats.getD f 0 = q)
    (hp : 0 < census.countP (fun r => r.code == c))
    (hv : validPermFor census f perms c) :
    trueCount (randomly_assign_census_features census k perms) c f = q := by
  have key : trueCount (randomly_assign_census_features census k perms) c f
      = (stacked census k perms).countP
          (fun fb => fb.2.code == c && (if f = fb.1 then fb.2.feat else false)) := by
    rw [trueCount, randomly_assign_census_features, List.countP_map]
    conv_rhs => rw [← countP_enum]
    apply List.countP_congr
    intro ia _
    simp only [Function.comp_apply]
    rw [getD_map_range hf]
  rw [key, stacked, List.countP_flatten, List.map_map]
  have hstep : ((List.range k).map
      ((fun l : List (Nat × BRow) => l.countP
          (fun fb => fb.2.code == c && (if f = fb.1 then fb.2.feat else false)))
        ∘ fun i => (sampledFor census perms i).map fun b => (i, b))).sum
      = ((List.range k).map (fun i => if i = f then q else 0)).sum := by
    apply congrArg List.sum
    apply List.map_congr_left
    intro i hi
    simp only [Function.comp_apply, List.countP_map]
    by_cases h : i = f
    · subst h
      rw [if_pos rfl]
      calc (sampledFor census perms i).countP
            ((fun fb : Nat × BRow =>
                fb.2.code == c && (if i = fb.1 then fb.2.feat else false)) ∘
              fun b => (i, b))
          = (sampledFor census perms i).countP (fun b => b.code == c) := by
            apply List.countP_congr
            intro b hb
            have hbf : b.feat = true := feat_of_mem_sample hb
            simp [hbf]
        _ = q := countP_sampledFor_eq census perms i c q hu hp hv
    · have hne : ¬f = i := fun hh => h hh.symm
      rw [if_neg h, List.countP_eq_zero]
      intro b _
      simp [hne]
  rw [hstep, sum_map_ite_eq q k f hf]

/-- Counting all output rows of one region: every feature frame
contributes its per-feature sample count. -/
lemma codeCount_assign (census : List InRow) (k : Nat)
    (perms : Nat → Nat → List Nat) (c : Nat) (q : Nat → Nat)
    (hu : ∀ f, f < k → ∀ r ∈ census, r.code = c → r.feats.getD f 0 = q f)
    (hp : 0 < census.countP (fun r => r.code == c))
    (hv : ∀ f, f < k → validPermFor census f perms c) :
    (randomly_assign_census_features census k perms).countP
      (fun o => o.code == c) = ((List.range k).map q).sum := by
  have key : (randomly_assign_census_features census k perms).countP
      (fun o => o.code == c)
      = (stacked census k perms).countP (fun fb => fb.2.code == c) := by
    rw [randomly_assign_census_features, List.countP_map]
    conv_rhs => rw [← countP_enum]
    apply List.countP_congr
    intro ia _
    simp [Function.comp]
  rw [key, stacked, List.countP_flatten, List.map_map]
  apply congrArg List.sum
  apply List.map_congr_left
  intro i hi
  simp only [Function.comp_apply, List.countP_map]
  exact countP_sampledFor_eq census perms i c (q i)
    (hu i (List.mem_range.1 hi)) hp (hv i (List.mem_range.1 hi))

/-- Every output row of `randomly_assign_census_features` copies the
region code and the coordinates of some row of the joined input frame. -/
lemma mem_assign_source {census : List InRow} {k : Nat}
    {perms : Nat → Nat → List Nat} {o : OutRow}
    (h : o ∈ randomly_assign_census_features census k perms) :
    ∃ r ∈ census, r.code = o.code ∧ r.lng = o.lng ∧ r.lat = o.lat := by
  rw [randomly_assign_census_features] at h
  obtain ⟨ir, hir, rfl⟩ := List.mem_map.1 h
  have h2 : ir.2 ∈ stacked census k perms := by
    have h3 := List.mem_map_of_mem Prod.snd hir
    rwa [show (stacked census k perms).enum.map Prod.snd
      = stacked census k perms from List.enumFrom_map_snd 0 _] at h3
  rw [stacked, List.mem_flatten] at h2
  obtain ⟨s, hs, hmem⟩ := h2
  obtain ⟨i, hi, rfl⟩ := List.mem_map.1 hs
  obtain ⟨b, hb, hpair⟩ := List.mem_map.1 hmem
  obtain ⟨r', hr', hcode, hlng, hlat⟩ := mem_sample_source hb
  obtain ⟨r, hr, rfl⟩ := List.mem_map.1 hr'
  refine ⟨r, hr, ?_, ?_, ?_⟩
  · show r.code = ir.2.2.code
    rw [← hpair]
    exact hcode
  · show r.lng = ir.2.2.lng
    rw [← hpair]
    exact hlng
  · show r.lat = ir.2.2.lat
    rw [← hpair]
    exact hlat

/-- Every row of the joined frame draws its feature counts from a census
row of the same region. -/
lemma mem_join_census_fields {census : List CensusRow} {coords : List CoordRow}
    {r : InRow} (h : r ∈ join_census_with_coords census coords) :
    ∃ cr ∈ census, cr.code = r.code ∧ cr.feats = r.feats := by
  rw [join_census_with_coords, List.mem_flatten] at h
  obtain ⟨s, hs, hmem⟩ := h
  obtain ⟨cr, hcr, rfl⟩ := List.mem_map.1 hs
  obtain ⟨kr, hkr, rfl⟩ := List.mem_map.1 hmem
  exact ⟨cr, hcr, rfl, rfl⟩

/-- Every row of the joined frame draws its coordinates from a coordinate
row of the same region. -/
lemma mem_join_coords {census : List CensusRow} {coords : List CoordRow}
    {r : InRow} (h : r ∈ join_census_with_coords census coords) :
    ∃ kr ∈ coords, kr.code = r.code ∧ kr.lng = r.lng ∧ kr.lat = r.lat := by
  rw [join_census_with_coords, List.mem_flatten] at h
  obtain ⟨s, hs, hmem⟩ := h
  obtain ⟨cr, hcr, rfl⟩ := List.mem_map.1 hs
  obtain ⟨kr, hkr, rfl⟩ := List.mem_map.1 hmem
  have hk := (List.mem_filter.1 hkr).2
  refine ⟨kr, (List.mem_filter.1 hkr).1, ?_, rfl, rfl⟩
  simpa using hk

/-- The sample is (as a multiset) contained in the repeated frame: any
count over region code and coordinates is bounded by its count in the
repeated frame. -/
lemma countP_sample_le (census : List CRow) (perm : Nat → List Nat)
    (p : Nat → Int → Int → Bool) :
    (sample_census_feature census perm).countP (fun b => p b.code b.lng b.lat)
      ≤ (repeatBy census).countP (fun r => p r.code r.lng r.lat) := by
  rw [sample_census_feature]
  split
  · simp
  · rw [List.countP_map]
    apply le_trans ((List.filter_sublist _).countP_le _)
    apply le_of_eq
    conv_rhs => rw [← withGroupIdx_map_fst (repeatBy census) []]
    rw [List.countP_map]
    exact rfl

/-- A predicate absent from the frame is absent from the repeated frame. -/
lemma countP_repeatBy_zero (p : CRow → Bool) {l : List CRow}
    (h : l.countP p = 0) : (repeatBy l).countP p = 0 := by
  rw [List.countP_eq_zero] at h ⊢
  intro r hr
  exact h r (mem_of_mem_repeatBy hr)

/-- A row matched exactly once in the frame occurs exactly its feature
count many times in the repeated frame. -/
lemma countP_repeatBy_of_one (p : CRow → Bool) (q : Nat) :
    ∀ l : List CRow, l.countP p = 1 →
      (∀ r ∈ l, p r = true → r.feat = q) → (repeatBy l).countP p = q
  | [], h1, _ => by simp at h1
  | r :: rs, h1, hu => by
    rw [repeatBy_cons, List.countP_append, countP_replicate]
    rw [List.countP_cons] at h1
    by_cases h : p r
    · have h0 : rs.countP p = 0 := by
        rw [if_pos h] at h1
        omega
      rw [if_pos h, countP_repeatBy_zero p h0,
        hu r (List.mem_cons_self _ _) h]
      omega
    · have h1s : rs.countP p = 1 := by
        rw [if_neg h] at h1
        omega
      rw [if_neg h, countP_repeatBy_of_one p q rs h1s
        (fun s hs => hu s (List.mem_cons_of_mem _ hs))]
      omega

/-- Folding the nearest-polygon step over any list keeps the accumulator
defined. -/
lemma foldl_isSome {β : Type} (step : Option β → β → Option β)
    (hstep : ∀ acc b, acc.isSome = true → (step acc b).isSome = true) :
    ∀ (l : List β) (acc : Option β), acc.isSome = true →
      (l.foldl step acc).isSome = true := by
  intro l
  induction l with
  | nil => intro acc h; simpa using h
  | cons a l ih =>
    intro acc h
    rw [List.foldl_cons]
    exact ih _ (hstep acc a h)

/-- Against a non-empty polygon set, the nearest query always answers. -/
lemma nearest_isSome (p : Point) :
    ∀ polys : List Polygon, polys ≠ [] → (nearest polys p).isSome = true := by
  intro polys hne
  match polys with
  | [] => exact absurd rfl hne
  | a :: l =>
    rw [nearest, List.foldl_cons]
    apply foldl_isSome
    · intro acc b hacc
      match acc with
      | some best =>
        dsimp only
        split <;> rfl
      | none => rfl
    · rfl

/-- Every output row of `process_chunk` against a non-empty polygon set
has both area fields filled: containment rows copy a containing polygon,
and unmatched rows receive the nearest polygon. -/
lemma area_isSome_of_mem_process_chunk {map_data : List Polygon}
    {chunk : List Point} {row : ARow} (hne : map_data ≠ [])
    (h : row ∈ process_chunk map_data chunk) :
    row.area_code.isSome = true ∧ row.area.isSome = true := by
  rw [process_chunk, List.mem_flatten] at h
  obtain ⟨s, hs, hrow⟩ := h
  obtain ⟨p, hp, rfl⟩ := List.mem_map.1 hs
  by_cases hw : (map_data.filter (fun poly => poly.contains p)).isEmpty
  · rw [if_pos hw] at hrow
    cases hnr : nearest map_data p with
    | none =>
      have hns := nearest_isSome p map_data hne
      rw [hnr] at hns
      simp at hns
    | some poly =>
      rw [hnr] at hrow
      rw [List.mem_singleton] at hrow
      subst hrow
      exact ⟨rfl, rfl⟩
  · rw [if_neg hw] at hrow
    obtain ⟨poly, hpoly, rfl⟩ := List.mem_map.1 hrow
    exact ⟨rfl, rfl⟩

/-- The spatial join distributes over concatenation of chunks: it is a
pure per-point map. -/
lemma process_chunk_append (map_data : List Polygon) (c1 c2 : List Point) :
    process_chunk map_data (c1 ++ c2)
      = process_chunk map_data c1 ++ process_chunk map_data c2 := by
  simp [process_chunk, List.map_append, List.flatten_append]

/-- Concatenating the chunks of `np.array_split` restores the list. -/
lemma array_split_flatten : ∀ (n : Nat) (l : List Point), 1 ≤ n →
    (array_split l n).flatten = l
  | 0, _, h => absurd h (by omega)
  | 1, l, _ => by
    have hstep : array_split l 1
        = l.take (splitSize l.length 1)
          :: array_split (l.drop (splitSize l.length 1)) 0 := rfl
    have hs : splitSize l.length 1 = l.length := by
      simp [splitSize, Nat.mod_one, Nat.div_one]
    rw [hstep, hs]
    simp [array_split]
  | n + 2, l, _ => by
    have hstep : array_split l (n + 2)
        = l.take (splitSize l.length (n + 2))
          :: array_split (l.drop (splitSize l.length (n + 2))) (n + 1) := rfl
    rw [hstep, List.flatten_cons,
      array_split_flatten (n + 1) _ (by omega), List.take_append_drop]

/-- C1: for every census table, coordinate table, region code `c` and
feature column `f < k` whose census count for region `c` is `q`, if at
least one address row is joined to region `c`, then for any lawful
shuffle the combined output of `randomly_assign_census_features`
contains exactly `q` rows of region `c` with flag `f` set to true (a
quota of 0 yields zero such rows, with no error: the function is total). -/
theorem quota_preservation (census : List CensusRow) (coords : List CoordRow)
    (k : Nat) (perms : Nat → Nat → List Nat) (c f q : Nat) (hf : f < k)
    (hu : ∀ cr ∈ census, cr.code = c → cr.feats.getD f 0 = q)
    (hp : 0 < (join_census_with_coords census coords).countP
      (fun r => r.code == c))
    (hv : validPermFor (join_census_with_coords census coords) f perms c) :
    trueCount (randomly_assign_census_features
      (join_census_with_coords census coords) k perms) c f = q := by
  refine trueCount_assign _ k perms c f q hf ?_ hp hv
  intro r hr hrc
  obtain ⟨cr, hcr, hcode, hfeats⟩ := mem_join_census_fields hr
  rw [← hfeats]
  exact hu cr hcr (hcode.trans hrc)

/-- Witness for C1 at a concrete input: one region with quota 2 and a
two-address pool; the output carries exactly 2 true rows. -/
theorem quota_preservation_witness :
    (0 : Nat) < 1 ∧
    (∀ cr ∈ wCensusT, cr.code = 3 → cr.feats.getD 0 0 = 2) ∧
    0 < (join_census_with_coords wCensusT wCoords).countP
      (fun r => r.code == 3) ∧
    validPermFor (join_census_with_coords wCensusT wCoords) 0 wPerms1 3 ∧
    trueCount (randomly_assign_census_features
      (join_census_with_coords wCensusT wCoords) 1 wPerms1) 3 0 = 2 :=
  ⟨by decide, by decide, by decide, by decide,
    quota_preservation wCensusT wCoords 1 wPerms1 3 0 2 (by decide) (by decide)
      (by decide) (by decide)⟩

/-- C2 counterexample: the allocation takes no seed (or mode) argument;
its shuffle draws on the implicit global random state, modelled by the
permutation oracle.  Two runs on identical arguments, under two lawful
outcomes of the unseeded shuffle, return different outputs, so the
arguments do not determine the result byte-identically. -/
theorem seed_determinism_cex :
    validPermFor cexCensus2 0 cexPermsA 0 ∧
    validPermFor cexCensus2 0 cexPermsB 0 ∧
    randomly_assign_census_features cexCensus2 1 cexPermsA ≠
      randomly_assign_census_features cexCensus2 1 cexPermsB := by
  refine ⟨by decide, by decide, by decide⟩

/-- C2 (amended): the allocation has no seed or mode parameter and its
row-level output depends on the implicit global random state (the
shuffle oracle); what is invariant across any two lawful shuffle
outcomes is the aggregate: the per-(region, feature) count of true rows
is the same in both runs. -/
theorem aggregate_determinism (census : List InRow) (k : Nat)
    (perms1 perms2 : Nat → Nat → List Nat) (c f q : Nat) (hf : f < k)
    (hu : ∀ r ∈ census, r.code = c → r.feats.getD f 0 = q)
    (hp : 0 < census.countP (fun r => r.code == c))
    (hv1 : validPermFor census f perms1 c)
    (hv2 : validPermFor census f perms2 c) :
    trueCount (randomly_assign_census_features census k perms1) c f
      = trueCount (randomly_assign_census_features census k perms2) c f :=
  (trueCount_assign census k perms1 c f q hf hu hp hv1).trans
    (trueCount_assign census k perms2 c f q hf hu hp hv2).symm

/-- Witness for the amended C2 at the concrete two-address input with
two different lawful shuffles. -/
theorem aggregate_determinism_witness :
    (0 : Nat) < 1 ∧
    (∀ r ∈ cexCensus2, r.code = 0 → r.feats.getD 0 0 = 1) ∧
    0 < cexCensus2.countP (fun r => r.code == 0) ∧
    validPermFor cexCensus2 0 cexPermsA 0 ∧
    validPermFor cexCensus2 0 cexPermsB 0 ∧
    trueCount (randomly_assign_census_features cexCensus2 1 cexPermsA) 0 0
      = trueCount (randomly_assign_census_features cexCensus2 1 cexPermsB) 0 0 :=
  ⟨by decide, by decide, by decide, by decide, by decide,
    aggregate_determinism cexCensus2 1 cexPermsA cexPermsB 0 0 1 (by decide)
      (by decide) (by decide) (by decide) (by decide)⟩

/-- C3 counterexample: region 7 has quota 5 and an empty address pool,
yet the pipeline raises nothing — the inner join drops the region and
the allocation returns normally with zero rows (the repository defines
no `AllocationError` at all). -/
theorem empty_pool_no_error_cex :
    (∀ cr ∈ cexCensus3, cr.code = 7 → cr.feats.getD 0 0 = 5) ∧
    (0 : Nat) < 5 ∧
    ([] : List CoordRow).countP (fun kr => kr.code == 7) = 0 ∧
    randomly_assign_census_features
      (join_census_with_coords cexCensus3 []) 1 (fun _ _ => []) = [] := by
  refine ⟨by decide, by decide, by decide, by decide⟩

/-- C3 (amended): when no coordinate row is joined to region `c`, the
inner join drops the region and the allocation silently emits zero rows
for it — the run completes normally instead of raising an error. -/
theorem empty_pool_silent_drop (census : List CensusRow)
    (coords : List CoordRow) (k : Nat) (perms : Nat → Nat → List Nat)
    (c : Nat) (hc : ∀ kr ∈ coords, kr.code ≠ c) :
    ∀ o ∈ randomly_assign_census_features
      (join_census_with_coords census coords) k perms, o.code ≠ c := by
  intro o ho hoc
  obtain ⟨r, hr, hrc, -, -⟩ := mem_assign_source ho
  obtain ⟨kr, hkr, hkrc, -, -⟩ := mem_join_coords hr
  exact hc kr hkr (by rw [hkrc, hrc, hoc])

/-- Witness for the amended C3: region 7 has no addresses, region 8 has
one; the output row (from region 8) is not of region 7. -/
theorem empty_pool_silent_drop_witness :
    (∀ kr ∈ wCoords3, kr.code ≠ 7) ∧
    (⟨0, 8, 5, 6, [true]⟩ : OutRow) ∈ randomly_assign_census_features
      (join_census_with_coords wCensus3 wCoords3) 1 wPerms3 ∧
    (⟨0, 8, 5, 6, [true]⟩ : OutRow).code ≠ 7 :=
  ⟨by decide, by decide,
    empty_pool_silent_drop wCensus3 wCoords3 1 wPerms3 7 (by decide) _
      (by decide)⟩

/-- C4 counterexample: with two features of quotas 2 and 3 over a
5-address pool and overlapping lawful samples, the outer-join helper
`_join_sampled_census_features` yields 3 rows — not the 5 the claim
asserts — while `randomly_assign_census_features` itself yields 5 rows
because it vertically stacks the per-feature frames instead of joining
them. -/
theorem multi_response_join_cex :
    (∀ f, f < 2 → validPermFor cexCensus4 f cexPerms4 0) ∧
    cexCensus4.countP (fun r => r.code == 0) = 5 ∧
    (∀ r ∈ cexCensus4, r.code = 0 →
      r.feats.getD 0 0 = 2 ∧ r.feats.getD 1 0 = 3) ∧
    (join_sampled_census_features (sampledFor cexCensus4 cexPerms4 0)
      (sampledFor cexCensus4 cexPerms4 1)).length = 3 ∧
    (randomly_assign_census_features cexCensus4 2 cexPerms4).length = 5 := by
  refine ⟨by decide, by decide, by decide, by decide, by decide⟩

/-- C4 (amended): `randomly_assign_census_features` combines the
per-feature sampled frames by vertical stacking with missing flags
filled false (the outer-join helper exists but is unused): two features
with quotas `q0` and `q1` over a non-empty pool of a region yield, for
that region, exactly `q0` rows true for feature 0, `q1` rows true for
feature 1, and `q0 + q1` rows in total — one output row per selected
(address, feature) pair. -/
theorem stacking_combination (census : List InRow)
    (perms : Nat → Nat → List Nat) (c q0 q1 : Nat)
    (hu0 : ∀ r ∈ census, r.code = c → r.feats.getD 0 0 = q0)
    (hu1 : ∀ r ∈ census, r.code = c → r.feats.getD 1 0 = q1)
    (hp : 0 < census.countP (fun r => r.code == c))
    (hv0 : validPermFor census 0 perms c)
    (hv1 : validPermFor census 1 perms c) :
    trueCount (randomly_assign_census_features census 2 perms) c 0 = q0 ∧
    trueCount (randomly_assign_census_features census 2 perms) c 1 = q1 ∧
    (randomly_assign_census_features census 2 perms).countP
      (fun o => o.code == c) = q0 + q1 := by
  refine ⟨trueCount_assign census 2 perms c 0 q0 (by omega) hu0 hp hv0,
    trueCount_assign census 2 perms c 1 q1 (by omega) hu1 hp hv1, ?_⟩
  have hC := codeCount_assign census 2 perms c
    (fun f => if f = 0 then q0 else q1)
    (by
      intro f hf
      match f, hf with
      | 0, _ => simpa using hu0
      | 1, _ => simpa using hu1
      | n + 2, h => exact absurd h (by omega))
    hp
    (by
      intro f hf
      match f, hf with
      | 0, _ => exact hv0
      | 1, _ => exact hv1
      | n + 2, h => exact absurd h (by omega))
  rw [hC]
  have hr2 : List.range 2 = [0, 1] := rfl
  rw [hr2]
  simp

/-- Witness for the amended C4 at the 5-address pool with quotas 2 and
3: counts 2, 3 and 5. -/
theorem stacking_combination_witness :
    (∀ r ∈ cexCensus4, r.code = 0 → r.feats.getD 0 0 = 2) ∧
    (∀ r ∈ cexCensus4, r.code = 0 → r.feats.getD 1 0 = 3) ∧
    0 < cexCensus4.countP (fun r => r.code == 0) ∧
    validPermFor cexCensus4 0 cexPerms4 0 ∧
    validPermFor cexCensus4 1 cexPerms4 0 ∧
    (trueCount (randomly_assign_census_features cexCensus4 2 cexPerms4) 0 0 = 2 ∧
      trueCount (randomly_assign_census_features cexCensus4 2 cexPerms4) 0 1 = 3 ∧
      (randomly_assign_census_features cexCensus4 2 cexPerms4).countP
        (fun o => o.code == 0) = 2 + 3) :=
  ⟨by decide, by decide, by decide, by decide, by decide,
    stacking_combination cexCensus4 cexPerms4 0 2 3 (by decide) (by decide)
      (by decide) (by decide) (by decide)⟩

/-- C5 counterexample: a pool of two distinct addresses with quota 2 and
the identity shuffle (a lawful outcome) selects the first address twice:
the selected rows are not pairwise distinct even though the pool size
equals the quota, because `sample_census_feature` always replicates
every address `quota` times before sampling. -/
theorem distinct_addresses_cex :
    validPerm cexCensus5 cexPerm5 0 ∧
    cexCensus5.countP (isCode 0) = 2 ∧
    (∀ r ∈ cexCensus5, r.code = 0 → r.feat = 2) ∧
    sample_census_feature cexCensus5 cexPerm5
      = [⟨0, 0, 0, true⟩, ⟨0, 0, 0, true⟩] := by
  refine ⟨by decide, by decide, by decide, by decide⟩

/-- C5 (amended): for a region with uniform quota `q` and non-empty
pool, any lawful shuffle selects exactly `q` rows, and an address that
occurs once in the region's pool occurs at most `q` times among the
selected rows (pairwise distinctness does not hold). -/
theorem selection_multiplicity (census : List CRow) (perm : Nat → List Nat)
    (c q : Nat)
    (hu : ∀ r ∈ census, r.code = c → r.feat = q)
    (hp : 0 < census.countP (isCode c))
    (hv : validPerm census perm c) :
    (sample_census_feature census perm).countP (fun b => b.code == c) = q ∧
    ∀ x y : Int,
      census.countP (fun r => r.code == c && r.lng == x && r.lat == y) = 1 →
      (sample_census_feature census perm).countP
        (fun b => b.code == c && b.lng == x && b.lat == y) ≤ q := by
  refine ⟨countP_sample_eq census perm c q hu hp hv, ?_⟩
  intro x y hone
  have hle := countP_sample_le census perm
    (fun code lng lat => code == c && lng == x && lat == y)
  have hU : (repeatBy census).countP
      (fun r => r.code == c && r.lng == x && r.lat == y) = q := by
    apply countP_repeatBy_of_one _ q census hone
    intro r hr hpr
    have hcde : r.code = c := by
      simp only [Bool.and_eq_true, beq_iff_eq] at hpr
      exact hpr.1.1
    exact hu r hr hcde
  exact le_of_le_of_eq hle hU

/-- Witness for the amended C5 at the two-address pool with quota 2. -/
theorem selection_multiplicity_witness :
    (∀ r ∈ cexCensus5, r.code = 0 → r.feat = 2) ∧
    0 < cexCensus5.countP (isCode 0) ∧
    validPerm cexCensus5 cexPerm5 0 ∧
    ((sample_census_feature cexCensus5 cexPerm5).countP
        (fun b => b.code == 0) = 2 ∧
      ∀ x y : Int,
        cexCensus5.countP
          (fun r => r.code == 0 && r.lng == x && r.lat == y) = 1 →
        (sample_census_feature cexCensus5 cexPerm5).countP
          (fun b => b.code == 0 && b.lng == x && b.lat == y) ≤ 2) :=
  ⟨by decide, by decide, by decide,
    selection_multiplicity cexCensus5 cexPerm5 0 2 (by decide) (by decide)
      (by decide)⟩

/-- C6: against a non-empty polygon set, every output row of the spatial
attribution has non-null area fields: a point inside no polygon is
assigned the name and code of the minimum-distance polygon (ties broken
by polygon order), so no row of `process_chunk` has a null `area_code`
or `area`. -/
theorem nearest_no_null_area (map_data : List Polygon) (chunk : List Point)
    (hne : map_data ≠ []) :
    ∀ row ∈ process_chunk map_data chunk,
      row.area_code.isSome = true ∧ row.area.isSome = true :=
  fun _ hrow => area_isSome_of_mem_process_chunk hne hrow

/-- Witness for C6: a point contained in no polygon receives the only
polygon's name and code through the nearest fallback. -/
theorem nearest_no_null_area_witness :
    [wPoly6] ≠ [] ∧
    (⟨0, 0, some 5, some 11⟩ : ARow) ∈ process_chunk [wPoly6] [wPoint6] ∧
    ((⟨0, 0, some 5, some 11⟩ : ARow).area_code.isSome = true ∧
      (⟨0, 0, some 5, some 11⟩ : ARow).area.isSome = true) :=
  ⟨List.cons_ne_nil _ _, by decide,
    nearest_no_null_area [wPoly6] [wPoint6] (List.cons_ne_nil _ _) _
      (by decide)⟩

/-- C7: for every point set, polygon set and chunk count `n ≥ 1`,
splitting the points into `n` ordered chunks, attributing each chunk
independently against the full polygon set and concatenating the
per-chunk results equals attributing the whole point set at once: the
result is independent of the number of chunks. -/
theorem chunking_equivalence (map_data : List Polygon) (pnts : List Point)
    (n : Nat) (hn : 1 ≤ n) :
    parallel_process pnts map_data n = process_chunk map_data pnts := by
  rw [parallel_process]
  have hsplit : ∀ parts : List (List Point),
      (parts.map (fun chunk => process_chunk map_data chunk)).flatten
        = process_chunk map_data parts.flatten := by
    intro parts
    induction parts with
    | nil => rfl
    | cons a l ih =>
      rw [List.map_cons, List.flatten_cons, List.flatten_cons,
        process_chunk_append, ih]
  rw [hsplit, array_split_flatten n pnts hn]

/-- Witness for C7: three points, two chunks, one polygon. -/
theorem chunking_equivalence_witness :
    1 ≤ 2 ∧ parallel_process wPts7 wPolys7 2 = process_chunk wPolys7 wPts7 :=
  ⟨by decide, chunking_equivalence wPolys7 wPts7 2 (by decide)⟩

/-- C8: the chunked CSV writer appends each later chunk's full CSV
rendering, header line included, so a three-row table written with
chunk size 2 produces a file with a second header line in the middle —
not the single-header CSV rendering of the whole table that the claim
(and the function's own purpose) prescribes. -/
theorem chunked_header_duplication :
    write_csv_in_chunks (0 : Nat) [1, 2, 3] 2 = [0, 1, 2, 0, 3] ∧
    write_csv_in_chunks (0 : Nat) [1, 2, 3] 2 ≠ write_csv (0 : Nat) [1, 2, 3] := by
  have h : write_csv_in_chunks (0 : Nat) [1, 2, 3] 2 = [0, 1, 2, 0, 3] := by
    simp [write_csv_in_chunks, iter_slices, write_csv]
  exact ⟨h, by rw [h]; decide⟩

/-- C9: every coordinate pair in an output row of the allocation for a
region is the coordinate pair of some input coordinate row joined to
that same region: no coordinate is invented. -/
theorem no_invented_coordinates (census : List CensusRow)
    (coords : List CoordRow) (k : Nat) (perms : Nat → Nat → List Nat)
    (o : OutRow)
    (ho : o ∈ randomly_assign_census_features
      (join_census_with_coords census coords) k perms) :
    ∃ kr ∈ coords, kr.code = o.code ∧ kr.lng = o.lng ∧ kr.lat = o.lat := by
  obtain ⟨r, hr, h1, h2, h3⟩ := mem_assign_source ho
  obtain ⟨kr, hkr, g1, g2, g3⟩ := mem_join_coords hr
  exact ⟨kr, hkr, g1.trans h1, g2.trans h2, g3.trans h3⟩

/-- Witness for C9 at the concrete one-region pipeline. -/
theorem no_invented_coordinates_witness :
    (⟨0, 3, 10, 20, [true]⟩ : OutRow) ∈ randomly_assign_census_features
      (join_census_with_coords wCensusT wCoords) 1 wPerms1 ∧
    ∃ kr ∈ wCoords, kr.code = (⟨0, 3, 10, 20, [true]⟩ : OutRow).code ∧
      kr.lng = (⟨0, 3, 10, 20, [true]⟩ : OutRow).lng ∧
      kr.lat = (⟨0, 3, 10, 20, [true]⟩ : OutRow).lat :=
  ⟨by decide,
    no_invented_coordinates wCensusT wCoords 1 wPerms1 _ (by decide)⟩

/-- C10: calling `filter_sa1_regions` with both code lists empty skips
both filters and returns the input frame unchanged. -/
theorem filter_empty_identity (lf : List FRow) :
    filter_sa1_regions lf [] [] = lf := rfl

end NHS
